import Mathlib

/-!
Verification of the DFA engine of the AFD simulator
(src/afd_py_qt_6_simulator.py, class AFD).

The Python engine is shallowly embedded:
  * Python sets of state names are lists compared by membership (the
    constructor applies List.dedup where Python applies set(...));
  * the transition dictionary state -> (symbol -> state) is an association
    list of association lists, looked up with List.lookup (Python dict keys
    are unique, and lookup of the first matching key agrees with dict
    access for every list that models a dict);
  * a Python string under simulation is a list of its symbols;
  * raising ValueError is returning Except.error.
-/

/-- A Deterministic Finite Automaton, mirroring the fields of the Python
class AFD: states (Q), alphabet (Sigma, order preserved), initial_state
(q0, possibly None), accepting_states (F) and transitions (delta), the
nested dictionary state -> (symbol -> destination). -/
structure AFD where
  states : List String
  alphabet : List String
  initial_state : Option String
  accepting_states : List String
  transitions : List (String × List (String × String))
deriving DecidableEq

/-- One recorded simulation step: the tuple
(i, estado_actual, simbolo_leido, estado_siguiente) appended to the trace
by AFD.step_by_step.  from_state is an Option because the Python current
state can be None when no initial state was configured. -/
structure Step where
  pos : Nat
  from_state : Option String
  symbol : String
  to_state : Option String
deriving DecidableEq

/-- The error raised by the alphabet pre-check of AFD.step_by_step
(ValueError: Simbolo '...' no pertenece al alfabeto). -/
inductive SimError where
  | symbolNotInAlphabet (sym : String)
deriving DecidableEq

/-- The validation errors raised by AFD.validate, one constructor per
distinct ValueError message of the source. -/
inductive VErr where
  | initialNotInStates
  | acceptingNotSubset
  | transSourceUnknown (s : String)
  | transSymbolNotInAlphabet (sym : String)
  | transTargetUnknown (dst : String)
deriving DecidableEq

/-- Looking up delta(cur, sym) in the nested transition dictionary.  In the
source this is the test cur in self.transitions and ch in
self.transitions[cur], followed by the access self.transitions[cur][ch].
A current state of none (Python None) is never a dictionary key. -/
def lookupT (tr : List (String × List (String × String))) (cur : Option String)
    (sym : String) : Option String :=
  match cur with
  | none => none
  | some s =>
    match tr.lookup s with
    | none => none
    | some mp => mp.lookup sym

/-- Membership of the current state in the accepting set, the Python test
cur in self.accepting_states; None is never a member of a set of names. -/
def AFD.finalAccept (m : AFD) : Option String → Bool
  | none => false
  | some s => m.accepting_states.contains s

/-- The main loop of AFD.step_by_step: consume the input symbol by symbol
from state cur, the next step being numbered i.  A missing transition
appends a step with destination none and stops with accepted = false;
otherwise the completed step is appended and the walk advances.  When the
whole input is consumed, accepted is the membership of the final state in
accepting_states. -/
def AFD.runLoop (m : AFD) (cur : Option String) (i : Nat) :
    List String → List Step × Bool
  | [] => ([], m.finalAccept cur)
  | ch :: rest =>
    match lookupT m.transitions cur ch with
    | none => ([⟨i, cur, ch, none⟩], false)
    | some nxt =>
      let r := m.runLoop (some nxt) (i + 1) rest
      (⟨i, cur, ch, some nxt⟩ :: r.1, r.2)

/-- AFD.step_by_step: first the pre-check that every symbol of the input is
in the alphabet (the first offending symbol raises ValueError, here
Except.error, before any transition is taken), then the simulation loop
starting at initial_state with steps numbered from 1. -/
def AFD.step_by_step (m : AFD) (input : List String) :
    Except SimError (List Step × Bool) :=
  match input.find? (fun ch => !(m.alphabet.contains ch)) with
  | some ch => Except.error (SimError.symbolNotInAlphabet ch)
  | none => Except.ok (m.runLoop m.initial_state 1 input)

/-- Proof-side companion of AFD.runLoop: the state reached by following
delta from cur along the input, or none when the walk hits a missing
transition. -/
def AFD.walk (m : AFD) (cur : Option String) : List String → Option (Option String)
  | [] => some cur
  | ch :: rest =>
    match lookupT m.transitions cur ch with
    | none => none
    | some nxt => m.walk (some nxt) rest

/-- Python truthiness of the initial_state field as used by the guard
if self.initial_state: both None and the empty string are falsy. -/
def truthy : Option String → Bool
  | none => false
  | some s => s != ""

/-- The first guard of AFD.validate:
if self.initial_state and self.initial_state not in self.states. -/
def AFD.initialBad (m : AFD) : Bool :=
  match m.initial_state with
  | none => false
  | some s => s != "" && !(m.states.contains s)

/-- The inner loop of AFD.validate over one transition mapping: every
symbol must belong to the alphabet and every destination to Q, and the
first offending entry determines the error. -/
def AFD.validateEntry (m : AFD) : List (String × String) → Except VErr Unit
  | [] => Except.ok ()
  | (sym, dst) :: rest =>
    if !(m.alphabet.contains sym) then
      Except.error (VErr.transSymbolNotInAlphabet sym)
    else if !(m.states.contains dst) then
      Except.error (VErr.transTargetUnknown dst)
    else m.validateEntry rest

/-- The outer loop of AFD.validate over the transition dictionary: each
source state must belong to Q, then its mapping is checked entry by
entry. -/
def AFD.validateTrans (m : AFD) : List (String × List (String × String)) → Except VErr Unit
  | [] => Except.ok ()
  | (s, mp) :: rest =>
    if !(m.states.contains s) then Except.error (VErr.transSourceUnknown s)
    else
      match m.validateEntry mp with
      | Except.error e => Except.error e
      | Except.ok () => m.validateTrans rest

/-- AFD.validate: the three groups of checks of the source in order:
initial state, accepting states as a subset of Q, then the transition
dictionary. -/
def AFD.validate (m : AFD) : Except VErr Unit :=
  if m.initialBad then Except.error VErr.initialNotInStates
  else if !(m.accepting_states.all (fun a => m.states.contains a)) then
    Except.error VErr.acceptingNotSubset
  else m.validateTrans m.transitions

/-- Structural invariant 1 of the data model, stated from the spec: the
initial state, when set to a non-empty name, belongs to Q. -/
def AFD.inv1 (m : AFD) : Bool :=
  match m.initial_state with
  | none => true
  | some s => s == "" || m.states.contains s

/-- Structural invariant 2: accepting_states is a subset of Q. -/
def AFD.inv2 (m : AFD) : Bool :=
  m.accepting_states.all (fun a => m.states.contains a)

/-- Structural invariant 3: every transition source state belongs to Q. -/
def AFD.inv3 (m : AFD) : Bool :=
  m.transitions.all (fun p => m.states.contains p.1)

/-- Structural invariant 4: every transition symbol belongs to the alphabet. -/
def AFD.inv4 (m : AFD) : Bool :=
  m.transitions.all (fun p => p.2.all (fun q => m.alphabet.contains q.1))

/-- Structural invariant 5: every transition destination belongs to Q. -/
def AFD.inv5 (m : AFD) : Bool :=
  m.transitions.all (fun p => p.2.all (fun q => m.states.contains q.2))

/-- The plain record produced by AFD.to_dict: the five fields with the
sets flattened to lists. -/
structure AFDRecord where
  states : List String
  alphabet : List String
  initial_state : Option String
  accepting_states : List String
  transitions : List (String × List (String × String))
deriving DecidableEq

/-- AFD.to_dict: list(self.states), list(self.alphabet), initial_state,
list(self.accepting_states) and the transition dictionary as stored. -/
def AFD.to_dict (m : AFD) : AFDRecord :=
  ⟨m.states, m.alphabet, m.initial_state, m.accepting_states, m.transitions⟩

/-- The constructor AFD.__init__: states and accepting_states pass through
set(...) (modelled as List.dedup), alphabet through list(...),
initial_state and transitions are taken as given. -/
def AFD.ofFields (states alphabet : List String) (ini : Option String)
    (accepting : List String)
    (tr : List (String × List (String × String))) : AFD :=
  ⟨states.dedup, alphabet, ini, accepting.dedup, tr⟩

/-- AFD.from_dict: rebuild an AFD from a record through the constructor. -/
def AFD.from_dict (r : AFDRecord) : AFD :=
  AFD.ofFields r.states r.alphabet r.initial_state r.accepting_states r.transitions

/-- Scenario B of the spec: states equal to the singleton q0, alphabet 0 and 1,
initial state q0, no accepting states, no transitions. -/
def exampleB : AFD := ⟨["q0"], ["0", "1"], some "q0", [], []⟩

/-- Scenario A of the spec: the even-number-of-ones parity automaton. -/
def exampleA : AFD :=
  ⟨["q0", "q1"], ["0", "1"], some "q0", ["q0"],
    [("q0", [("0", "q0"), ("1", "q1")]), ("q1", [("0", "q1"), ("1", "q0")])]⟩

/-- Scenario C of the spec: the at-least-one-one automaton. -/
def exampleC : AFD :=
  ⟨["q0", "q1"], ["0", "1"], some "q0", ["q1"],
    [("q0", [("0", "q0"), ("1", "q1")]), ("q1", [("0", "q1"), ("1", "q1")])]⟩

/-- A definition whose initial state is not in Q. -/
def badInitial : AFD := ⟨["q0"], ["0"], some "qx", [], []⟩

/-- A definition with an accepting state outside Q (Scenario D). -/
def badAccepting : AFD := ⟨["q0"], ["0"], some "q0", ["q9"], []⟩

/-- A definition with a transition from a state outside Q. -/
def badSource : AFD := ⟨["q0"], ["0"], some "q0", [], [("qz", [])]⟩

/-- A definition with a transition over a symbol outside the alphabet. -/
def badSymbol : AFD := ⟨["q0"], ["0"], some "q0", [], [("q0", [("7", "q0")])]⟩

/-- A definition with a transition into a state outside Q. -/
def badTarget : AFD := ⟨["q0"], ["0"], some "q0", [], [("q0", [("0", "qz")])]⟩

/-- The unconfigured automaton: empty states, no initial state. -/
def emptyAFD : AFD := ⟨[], ["0"], none, [], []⟩

/-- A configuration of the breadth-first search of AFD.generate_accepted:
the current state (possibly None) paired with the string built so far. -/
abbrev Config := Option String × List String

/-- The expansion step of AFD.generate_accepted: for each symbol of the
alphabet in declared order, if delta(state, symbol) is defined, the child
configuration (destination, s + symbol). -/
def AFD.childConfigs (m : AFD) (state : Option String) (s : List String) : List Config :=
  m.alphabet.filterMap fun sym =>
    match lookupT m.transitions state sym with
    | some dst => some (some dst, s ++ [sym])
    | none => none

/-- The while loop of AFD.generate_accepted, with an explicit fuel
parameter standing for the number of loop iterations still allowed; none
means the fuel ran out before the loop finished.  Each iteration mirrors
the body of the source loop: the guard len(results) < n, the visited-set
de-duplication, recording the string when the state is accepting (with the
break once n results are collected), the max_len cutoff and the expansion
over the alphabet. -/
def AFD.genLoop (m : AFD) (n maxLen : Nat) :
    Nat → List Config → List Config → List (List String) → Option (List (List String))
  | 0, _, _, _ => none
  | _ + 1, [], _, results => some results
  | fuel + 1, (state, s) :: rest, visited, results =>
    if n ≤ results.length then some results
    else if (state, s) ∈ visited then m.genLoop n maxLen fuel rest visited results
    else
      let visited' := (state, s) :: visited
      let results' :=
        if m.finalAccept state && !(results.contains s) then results ++ [s] else results
      if n ≤ results'.length then some results'
      else if maxLen ≤ s.length then m.genLoop n maxLen fuel rest visited' results'
      else m.genLoop n maxLen fuel (rest ++ m.childConfigs state s) visited' results'

/-- All states that can ever appear in a search configuration: the initial
state and every transition destination. -/
def AFD.stateSpace (m : AFD) : List (Option String) :=
  m.initial_state :: m.transitions.flatMap fun p => p.2.map fun q => some q.2

/-- All strings over the given alphabet of length at most the given bound. -/
def stringsUpTo (alphabet : List String) : Nat → List (List String)
  | 0 => [([] : List String)]
  | k + 1 => [] :: (stringsUpTo alphabet k).flatMap fun s => alphabet.map fun a => s ++ [a]

/-- The finite space of configurations the breadth-first search of
AFD.generate_accepted can ever enqueue. -/
def AFD.configSpace (m : AFD) (maxLen : Nat) : List Config :=
  m.stateSpace.flatMap fun st => (stringsUpTo m.alphabet maxLen).map fun s => (st, s)

/-- A fuel budget provably sufficient for the loop of
AFD.generate_accepted to run to completion. -/
def AFD.genFuel (m : AFD) (maxLen : Nat) : Nat :=
  (m.alphabet.length + 1) * (m.configSpace maxLen).length + 2

/-- AFD.generate_accepted: the breadth-first enumeration of accepted
strings, seeded with (initial_state, empty string); the fuel AFD.genFuel
is large enough for the loop to finish (theorem genLoop_terminates). -/
def AFD.generate_accepted (m : AFD) (n maxLen : Nat) : List (List String) :=
  (m.genLoop n maxLen (m.genFuel maxLen) [(m.initial_state, [])] [] []).getD []

/-- The loop of AFD.generate_accepted with the visited-set de-duplication
branch removed, the variant discussed by the spec: identical to
AFD.genLoop except that a dequeued configuration is never skipped and no
visited set is maintained. -/
def AFD.genLoopNoVis (m : AFD) (n maxLen : Nat) :
    Nat → List Config → List (List String) → Option (List (List String))
  | 0, _, _ => none
  | _ + 1, [], results => some results
  | fuel + 1, (state, s) :: rest, results =>
    if n ≤ results.length then some results
    else
      let results' :=
        if m.finalAccept state && !(results.contains s) then results ++ [s] else results
      if n ≤ results'.length then some results'
      else if maxLen ≤ s.length then m.genLoopNoVis n maxLen fuel rest results'
      else m.genLoopNoVis n maxLen fuel (rest ++ m.childConfigs state s) results'

/-- The enumeration with the de-duplication branch removed. -/
def AFD.generate_accepted_novisited (m : AFD) (n maxLen : Nat) : List (List String) :=
  (m.genLoopNoVis n maxLen (m.genFuel maxLen) [(m.initial_state, [])] []).getD []

/-- The loop of AFD.generate_accepted instrumented with a counter of how
many times the visited-set de-duplication branch fires. -/
def AFD.genLoopHits (m : AFD) (n maxLen : Nat) :
    Nat → List Config → List Config → List (List String) → Nat →
      Option (List (List String) × Nat)
  | 0, _, _, _, _ => none
  | _ + 1, [], _, results, c => some (results, c)
  | fuel + 1, (state, s) :: rest, visited, results, c =>
    if n ≤ results.length then some (results, c)
    else if (state, s) ∈ visited then m.genLoopHits n maxLen fuel rest visited results (c + 1)
    else
      let visited' := (state, s) :: visited
      let results' :=
        if m.finalAccept state && !(results.contains s) then results ++ [s] else results
      if n ≤ results'.length then some (results', c)
      else if maxLen ≤ s.length then m.genLoopHits n maxLen fuel rest visited' results' c
      else m.genLoopHits n maxLen fuel (rest ++ m.childConfigs state s) visited' results' c

/-- How often the de-duplication branch fires during a full run of
AFD.generate_accepted. -/
def AFD.generate_accepted_hits (m : AFD) (n maxLen : Nat) : Nat :=
  ((m.genLoopHits n maxLen (m.genFuel maxLen) [(m.initial_state, [])] [] [] 0).map
    (fun r => r.2)).getD 0

/-- Invariant of every configuration the search of AFD.generate_accepted
can reach: its state lies in the finite state space, its string is the
unique delta-walk from the initial state to that state, is built from
alphabet symbols, and respects the length bound. -/
def QInv (m : AFD) (maxLen : Nat) (c : Config) : Prop :=
  c.1 ∈ m.stateSpace ∧ m.walk m.initial_state c.2 = some c.1 ∧
    (∀ x ∈ c.2, x ∈ m.alphabet) ∧ c.2.length ≤ maxLen

/-- How many configurations of the finite search space are not yet in the
visited set: the decreasing part of the termination measure of
AFD.generate_accepted. -/
def AFD.unvisitedCount (m : AFD) (maxLen : Nat) (visited : List Config) : Nat :=
  ((m.configSpace maxLen).filter (fun c => !(visited.contains c))).length

deriving instance DecidableEq for Except

/-! ### Helper lemmas about membership and the simulator -/

lemma contains_iff {l : List String} {a : String} : l.contains a = true ↔ a ∈ l := by
  simp [List.contains, List.elem_iff]

lemma finalAccept_iff (m : AFD) (cur : Option String) :
    m.finalAccept cur = true ↔ ∃ s, cur = some s ∧ s ∈ m.accepting_states := by
  cases cur with
  | none => simp [AFD.finalAccept]
  | some s => simp [AFD.finalAccept, contains_iff]

lemma step_by_step_ok (m : AFD) (input : List String)
    (h : ∀ ch ∈ input, ch ∈ m.alphabet) :
    m.step_by_step input = Except.ok (m.runLoop m.initial_state 1 input) := by
  unfold AFD.step_by_step
  have hf : input.find? (fun ch => !(m.alphabet.contains ch)) = none := by
    rw [List.find?_eq_none]
    intro x hx
    simp [h x hx]
  rw [hf]

lemma walk_snoc (m : AFD) (sym : String) (st : Option String) (dst : String) :
    ∀ (s : List String) (cur : Option String), m.walk cur s = some st →
      lookupT m.transitions st sym = some dst →
      m.walk cur (s ++ [sym]) = some (some dst) := by
  intro s
  induction s with
  | nil =>
    intro cur hw hl
    cases hw
    simp [AFD.walk, hl]
  | cons ch rest ih =>
    intro cur hw hl
    simp only [AFD.walk] at hw ⊢
    cases hlk : lookupT m.transitions cur ch with
    | none => rw [hlk] at hw; exact absurd hw (by simp)
    | some nxt => rw [hlk] at hw; exact ih (some nxt) hw hl

lemma runLoop_snd_of_walk (m : AFD) :
    ∀ (s : List String) (cur : Option String) (st : Option String) (i : Nat),
      m.walk cur s = some st → (m.runLoop cur i s).2 = m.finalAccept st := by
  intro s
  induction s with
  | nil =>
    intro cur st i hw
    cases hw
    rfl
  | cons ch rest ih =>
    intro cur st i hw
    simp only [AFD.walk] at hw
    cases hlk : lookupT m.transitions cur ch with
    | none => rw [hlk] at hw; exact absurd hw (by simp)
    | some nxt =>
      rw [hlk] at hw
      simp only [AFD.runLoop, hlk]
      exact ih (some nxt) st (i + 1) hw

lemma runLoop_trace (m : AFD) :
    ∀ (input : List String) (cur : Option String) (i : Nat),
      ((m.runLoop cur i input).1.map Step.pos =
        List.range' i (m.runLoop cur i input).1.length)
      ∧ (∀ st ∈ (m.runLoop cur i input).1.head?, st.from_state = cur)
      ∧ (m.runLoop cur i input).1.Chain'
          (fun a b => a.to_state = b.from_state ∧ a.to_state ≠ none) := by
  intro input
  induction input with
  | nil => intro cur i; simp [AFD.runLoop]
  | cons ch rest ih =>
    intro cur i
    cases hlk : lookupT m.transitions cur ch with
    | none =>
      refine ⟨?_, ?_, ?_⟩ <;> simp [AFD.runLoop, hlk, List.range'_one]
    | some nxt =>
      obtain ⟨ihp, ihh, ihc⟩ := ih (some nxt) (i + 1)
      refine ⟨?_, ?_, ?_⟩
      · simp only [AFD.runLoop, hlk, List.map_cons, List.length_cons]
        rw [List.range'_succ]
        simpa using ihp
      · simp [AFD.runLoop, hlk]
      · simp only [AFD.runLoop, hlk]
      
        cases htr : (m.runLoop (some nxt) (i + 1) rest).1 with
        | nil => exact List.chain'_singleton _
        | cons b l =>
          rw [List.chain'_cons]
          constructor
          · have hb : b.from_state = some nxt := by
              have := ihh b; rw [htr] at this; simpa using this
            simp [hb]
          · rw [htr] at ihc; exact ihc

/-! ### Claims about the simulator -/

/-- C1: for every definition and every input whose symbols all belong to
the alphabet, step_by_step runs the loop from initial_state; the loop
stops with a none-destination step and accepted = false on a missing
transition, otherwise appends the completed step and advances, and on full
consumption accepts exactly when the final state is accepting; in
particular Scenario B yields the one-step stalled trace. -/
theorem claim_C1 :
    (∀ (m : AFD) (input : List String), (∀ ch ∈ input, ch ∈ m.alphabet) →
      m.step_by_step input = Except.ok (m.runLoop m.initial_state 1 input))
    ∧ (∀ (m : AFD) (cur : Option String) (i : Nat),
      m.runLoop cur i [] = ([], m.finalAccept cur))
    ∧ (∀ (m : AFD) (cur : Option String) (i : Nat) (ch : String) (rest : List String),
      lookupT m.transitions cur ch = none →
      m.runLoop cur i (ch :: rest) = ([⟨i, cur, ch, none⟩], false))
    ∧ (∀ (m : AFD) (cur : Option String) (i : Nat) (ch : String) (rest : List String)
        (nxt : String),
      lookupT m.transitions cur ch = some nxt →
      m.runLoop cur i (ch :: rest) =
        (⟨i, cur, ch, some nxt⟩ :: (m.runLoop (some nxt) (i + 1) rest).1,
          (m.runLoop (some nxt) (i + 1) rest).2))
    ∧ (∀ (m : AFD) (input : List String) (st : Option String),
      (∀ ch ∈ input, ch ∈ m.alphabet) → m.walk m.initial_state input = some st →
      m.step_by_step input =
        Except.ok ((m.runLoop m.initial_state 1 input).1, m.finalAccept st))
    ∧ exampleB.step_by_step ["0"] =
        Except.ok ([⟨1, some "q0", "0", none⟩], false) := by
  refine ⟨step_by_step_ok, fun m cur i => rfl, ?_, ?_, ?_, by decide⟩
  · intro m cur i ch rest h
    simp [AFD.runLoop, h]
  · intro m cur i ch rest nxt h
    simp [AFD.runLoop, h]
  · intro m input st hall hw
    rw [step_by_step_ok m input hall, ← runLoop_snd_of_walk m input m.initial_state st 1 hw]

/-- Witness for claim_C1 at Scenario B. -/
theorem claim_C1_witness :
    exampleB.step_by_step ["0"] =
      Except.ok (exampleB.runLoop exampleB.initial_state 1 ["0"]) ∧
    exampleA.step_by_step ["1", "1"] =
      Except.ok ((exampleA.runLoop exampleA.initial_state 1 ["1", "1"]).1,
        exampleA.finalAccept (some "q0")) :=
  ⟨claim_C1.1 exampleB ["0"] (by decide),
    claim_C1.2.2.2.2.1 exampleA ["1", "1"] (some "q0") (by decide) (by decide)⟩

/-- C7: on the empty input the trace is empty and acceptance holds exactly
when the initial state is a member of the accepting set. -/
theorem claim_C7 (m : AFD) :
    m.step_by_step [] = Except.ok ([], m.finalAccept m.initial_state)
    ∧ (m.finalAccept m.initial_state = true ↔
        ∃ s, m.initial_state = some s ∧ s ∈ m.accepting_states) :=
  ⟨rfl, finalAccept_iff m m.initial_state⟩

/-- C4: step_by_step fails, necessarily with symbolNotInAlphabet, exactly
when some input symbol is outside the alphabet; the failing symbol is such
an offender, and the failure is independent of the transition table (so it
happens before any transition is taken, and a missing transition is never
surfaced as this error). -/
theorem claim_C4 (m : AFD) (input : List String) :
    ((∃ e, m.step_by_step input = Except.error e) ↔ ¬ (∀ ch ∈ input, ch ∈ m.alphabet))
    ∧ (∀ ch, m.step_by_step input = Except.error (SimError.symbolNotInAlphabet ch) →
        ch ∈ input ∧ ch ∉ m.alphabet ∧
        ∀ tr : List (String × List (String × String)),
          (AFD.mk m.states m.alphabet m.initial_state m.accepting_states tr).step_by_step
              input =
            Except.error (SimError.symbolNotInAlphabet ch)) := by
  constructor
  · constructor
    · rintro ⟨e, he⟩ hall
      rw [step_by_step_ok m input hall] at he
      exact absurd he (by simp)
    · intro hnot
      rcases not_forall.1 hnot with ⟨ch, hch⟩
      rcases Classical.not_imp.1 hch with ⟨hmem, hnotal⟩
      have : input.find? (fun c => !(m.alphabet.contains c)) ≠ none := by
        intro hnone
        rw [List.find?_eq_none] at hnone
        exact (hnone ch hmem) (by simp [hnotal])
      rcases Option.ne_none_iff_exists'.1 this with ⟨bad, hbad⟩
      exact ⟨SimError.symbolNotInAlphabet bad, by unfold AFD.step_by_step; rw [hbad]⟩
  · intro ch he
    unfold AFD.step_by_step at he
    cases hf : input.find? (fun c => !(m.alphabet.contains c)) with
    | none => rw [hf] at he; exact absurd he (by simp)
    | some bad =>
      rw [hf] at he
      have hbad : bad = ch := by
        have := congrArg (fun x : Except SimError (List Step × Bool) =>
          match x with
          | Except.error (SimError.symbolNotInAlphabet s) => s
          | _ => "") he
        simpa using this
      subst hbad
      have hmem : bad ∈ input := List.mem_of_find?_eq_some hf
      have hp := List.find?_some hf
      have hnotal : bad ∉ m.alphabet := by
        intro hin
        rw [contains_iff.2 hin] at hp
        simp at hp
      refine ⟨hmem, hnotal, fun tr => ?_⟩
      unfold AFD.step_by_step
      rw [hf]

/-- Witness for claim_C4 on an automaton and an input with a foreign symbol. -/
theorem claim_C4_witness :
    (∃ e, exampleB.step_by_step ["2"] = Except.error e)
    ∧ ("2" ∈ ["2"] ∧ "2" ∉ exampleB.alphabet ∧
        ∀ tr : List (String × List (String × String)),
          (AFD.mk exampleB.states exampleB.alphabet exampleB.initial_state
              exampleB.accepting_states tr).step_by_step ["2"] =
            Except.error (SimError.symbolNotInAlphabet "2")) :=
  ⟨(claim_C4 exampleB ["2"]).1.mpr (by decide),
    (claim_C4 exampleB ["2"]).2 "2" (by decide)⟩

/-- C10: every trace returned by step_by_step is internally chained: its
positions are exactly 1, 2, ..., length in order, the first step starts at
initial_state, and every non-final step has a some destination equal to
the next step's from_state. -/
theorem claim_C10 (m : AFD) (input : List String) (tr : List Step) (acc : Bool)
    (h : m.step_by_step input = Except.ok (tr, acc)) :
    tr.map Step.pos = List.range' 1 tr.length
    ∧ (∀ st ∈ tr.head?, st.from_state = m.initial_state)
    ∧ tr.Chain' (fun a b => a.to_state = b.from_state ∧ a.to_state ≠ none) := by
  have htr : tr = (m.runLoop m.initial_state 1 input).1 := by
    unfold AFD.step_by_step at h
    cases hf : input.find? (fun c => !(m.alphabet.contains c)) with
    | none =>
      rw [hf] at h
      have := congrArg (fun x : Except SimError (List Step × Bool) =>
        match x with
        | Except.ok p => p.1
        | _ => []) h
      simpa using this.symm
    | some bad => rw [hf] at h; exact absurd h (by simp)
  subst htr
  exact runLoop_trace m input m.initial_state 1

/-- Witness for claim_C10 on Scenario A with input 11. -/
theorem claim_C10_witness :
    ([⟨1, some "q0", "1", some "q1"⟩, ⟨2, some "q1", "1", some "q0"⟩].map Step.pos =
      List.range' 1 2)
    ∧ (∀ st ∈ ([⟨1, some "q0", "1", some "q1"⟩,
        ⟨2, some "q1", "1", some "q0"⟩] : List Step).head?,
        st.from_state = exampleA.initial_state)
    ∧ ([⟨1, some "q0", "1", some "q1"⟩, ⟨2, some "q1", "1", some "q0"⟩] : List Step).Chain'
        (fun a b => a.to_state = b.from_state ∧ a.to_state ≠ none) := by
  have := claim_C10 exampleA ["1", "1"]
    [⟨1, some "q0", "1", some "q1"⟩, ⟨2, some "q1", "1", some "q0"⟩] true (by decide)
  simpa using this

/-! ### Serialization round trip -/

/-- C3: from_dict (to_dict m) reproduces the definition up to the
documented equivalence: the states and accepting states as sets, the
alphabet as a sequence, the initial state, and the transition mapping
exactly. -/
theorem claim_C3 (m : AFD) :
    (∀ x, x ∈ (AFD.from_dict m.to_dict).states ↔ x ∈ m.states)
    ∧ (AFD.from_dict m.to_dict).alphabet = m.alphabet
    ∧ (AFD.from_dict m.to_dict).initial_state = m.initial_state
    ∧ (∀ x, x ∈ (AFD.from_dict m.to_dict).accepting_states ↔ x ∈ m.accepting_states)
    ∧ (AFD.from_dict m.to_dict).transitions = m.transitions := by
  refine ⟨?_, rfl, rfl, ?_, rfl⟩ <;>
    intro x <;> simp [AFD.from_dict, AFD.to_dict, AFD.ofFields, List.mem_dedup]

/-! ### Helper lemmas about the validator -/

lemma initialBad_eq (m : AFD) : m.initialBad = !m.inv1 := by
  cases h : m.initial_state with
  | none => simp [AFD.initialBad, AFD.inv1, h]
  | some s => simp [AFD.initialBad, AFD.inv1, h, Bool.not_or, bne]


lemma validateEntry_cons_ok (m : AFD) {sym dst : String} (rest : List (String × String))
    (h1 : sym ∈ m.alphabet) (h2 : dst ∈ m.states) :
    m.validateEntry ((sym, dst) :: rest) = m.validateEntry rest := by
  simp [AFD.validateEntry, h1, h2]

lemma validateEntry_cons_sym (m : AFD) {sym : String} (dst : String)
    (rest : List (String × String)) (h1 : sym ∉ m.alphabet) :
    m.validateEntry ((sym, dst) :: rest) =
      Except.error (VErr.transSymbolNotInAlphabet sym) := by
  simp [AFD.validateEntry, h1]

lemma validateEntry_cons_tgt (m : AFD) {sym dst : String} (rest : List (String × String))
    (h1 : sym ∈ m.alphabet) (h2 : dst ∉ m.states) :
    m.validateEntry ((sym, dst) :: rest) = Except.error (VErr.transTargetUnknown dst) := by
  simp [AFD.validateEntry, h1, h2]

lemma validateTrans_cons_src (m : AFD) {s : String} (mp : List (String × String))
    (rest : List (String × List (String × String))) (h1 : s ∉ m.states) :
    m.validateTrans ((s, mp) :: rest) = Except.error (VErr.transSourceUnknown s) := by
  simp [AFD.validateTrans, h1]

lemma validateTrans_cons_err (m : AFD) {s : String} {mp : List (String × String)}
    {e : VErr} (rest : List (String × List (String × String))) (h1 : s ∈ m.states)
    (he : m.validateEntry mp = Except.error e) :
    m.validateTrans ((s, mp) :: rest) = Except.error e := by
  simp [AFD.validateTrans, h1, he]

lemma validateTrans_cons_ok (m : AFD) {s : String} {mp : List (String × String)}
    (rest : List (String × List (String × String))) (h1 : s ∈ m.states)
    (he : m.validateEntry mp = Except.ok ()) :
    m.validateTrans ((s, mp) :: rest) = m.validateTrans rest := by
  simp [AFD.validateTrans, h1, he]

lemma validateEntry_ok_iff (m : AFD) (l : List (String × String)) :
    m.validateEntry l = Except.ok () ↔
      ∀ a b, (a, b) ∈ l → a ∈ m.alphabet ∧ b ∈ m.states := by
  induction l with
  | nil => simp [AFD.validateEntry]
  | cons q rest ih =>
    obtain ⟨sym, dst⟩ := q
    by_cases h1 : sym ∈ m.alphabet
    · by_cases h2 : dst ∈ m.states
      · rw [validateEntry_cons_ok m rest h1 h2, ih]
        constructor
        · intro h a b hab
          rcases List.mem_cons.1 hab with hh | hh
          · simp only [Prod.mk.injEq] at hh
            obtain ⟨rfl, rfl⟩ := hh
            exact ⟨h1, h2⟩
          · exact h a b hh
        · intro h a b hab
          exact h a b (List.mem_cons_of_mem _ hab)
      · rw [validateEntry_cons_tgt m rest h1 h2]
        constructor
        · intro h
          exact absurd h (by simp)
        · intro h
          exact absurd (h sym dst (by simp)).2 h2
    · rw [validateEntry_cons_sym m dst rest h1]
      constructor
      · intro h
        exact absurd h (by simp)
      · intro h
        exact absurd (h sym dst (by simp)).1 h1

lemma validateTrans_ok_iff (m : AFD) (l : List (String × List (String × String))) :
    m.validateTrans l = Except.ok () ↔
      ∀ s mp, (s, mp) ∈ l → s ∈ m.states ∧
        ∀ a b, (a, b) ∈ mp → a ∈ m.alphabet ∧ b ∈ m.states := by
  induction l with
  | nil => simp [AFD.validateTrans]
  | cons p rest ih =>
    obtain ⟨s, mp⟩ := p
    by_cases h1 : s ∈ m.states
    · cases he : m.validateEntry mp with
      | error e =>
        have hno : ¬ ∀ a b, (a, b) ∈ mp → a ∈ m.alphabet ∧ b ∈ m.states := by
          intro hall
          have hok := (validateEntry_ok_iff m mp).2 hall
          rw [hok] at he
          exact absurd he (by simp)
        rw [validateTrans_cons_err m rest h1 he]
        constructor
        · intro h
          exact absurd h (by simp)
        · intro h
          exact absurd (fun a b hab => (h s mp (by simp)).2 a b hab) hno
      | ok u =>
        cases u
        have hyes := (validateEntry_ok_iff m mp).1 he
        rw [validateTrans_cons_ok m rest h1 he, ih]
        constructor
        · intro h t tm htm
          rcases List.mem_cons.1 htm with hh | hh
          · simp only [Prod.mk.injEq] at hh
            obtain ⟨rfl, rfl⟩ := hh
            exact ⟨h1, hyes⟩
          · exact h t tm hh
        · intro h t tm htm
          exact h t tm (List.mem_cons_of_mem _ htm)
    · rw [validateTrans_cons_src m mp rest h1]
      constructor
      · intro h
        exact absurd h (by simp)
      · intro h
        exact absurd (h s mp (by simp)).1 h1

lemma validateEntry_symbol_err (m : AFD) (l : List (String × String))
    (htgt : ∀ a b, (a, b) ∈ l → b ∈ m.states)
    (hbad : ¬ ∀ a b, (a, b) ∈ l → a ∈ m.alphabet) :
    ∃ sym, sym ∉ m.alphabet ∧
      m.validateEntry l = Except.error (VErr.transSymbolNotInAlphabet sym) := by
  induction l with
  | nil => exact absurd (by simp) hbad
  | cons q rest ih =>
    obtain ⟨sym, dst⟩ := q
    by_cases h1 : sym ∈ m.alphabet
    · have h2 : dst ∈ m.states := htgt sym dst (by simp)
      have hbad' : ¬ ∀ a b, (a, b) ∈ rest → a ∈ m.alphabet := by
        intro hall
        refine hbad ?_
        intro a b hab
        rcases List.mem_cons.1 hab with hh | hh
        · simp only [Prod.mk.injEq] at hh
          obtain ⟨rfl, rfl⟩ := hh
          exact h1
        · exact hall a b hh
      obtain ⟨sy, hsy, heq⟩ :=
        ih (fun a b hab => htgt a b (List.mem_cons_of_mem _ hab)) hbad'
      exact ⟨sy, hsy, by rw [validateEntry_cons_ok m rest h1 h2, heq]⟩
    · exact ⟨sym, h1, validateEntry_cons_sym m dst rest h1⟩

lemma validateEntry_target_err (m : AFD) (l : List (String × String))
    (hsym : ∀ a b, (a, b) ∈ l → a ∈ m.alphabet)
    (hbad : ¬ ∀ a b, (a, b) ∈ l → b ∈ m.states) :
    ∃ dst, dst ∉ m.states ∧
      m.validateEntry l = Except.error (VErr.transTargetUnknown dst) := by
  induction l with
  | nil => exact absurd (by simp) hbad
  | cons q rest ih =>
    obtain ⟨sym, dst⟩ := q
    have h1 : sym ∈ m.alphabet := hsym sym dst (by simp)
    by_cases h2 : dst ∈ m.states
    · have hbad' : ¬ ∀ a b, (a, b) ∈ rest → b ∈ m.states := by
        intro hall
        refine hbad ?_
        intro a b hab
        rcases List.mem_cons.1 hab with hh | hh
        · simp only [Prod.mk.injEq] at hh
          obtain ⟨rfl, rfl⟩ := hh
          exact h2
        · exact hall a b hh
      obtain ⟨d, hd, heq⟩ :=
        ih (fun a b hab => hsym a b (List.mem_cons_of_mem _ hab)) hbad'
      exact ⟨d, hd, by rw [validateEntry_cons_ok m rest h1 h2, heq]⟩
    · exact ⟨dst, h2, validateEntry_cons_tgt m rest h1 h2⟩

lemma validateTrans_source_err (m : AFD) (l : List (String × List (String × String)))
    (hok : ∀ s mp, (s, mp) ∈ l → ∀ a b, (a, b) ∈ mp → a ∈ m.alphabet ∧ b ∈ m.states)
    (hbad : ¬ ∀ s mp, (s, mp) ∈ l → s ∈ m.states) :
    ∃ s, s ∉ m.states ∧
      m.validateTrans l = Except.error (VErr.transSourceUnknown s) := by
  induction l with
  | nil => exact absurd (by simp) hbad
  | cons p rest ih =>
    obtain ⟨s, mp⟩ := p
    by_cases h1 : s ∈ m.states
    · have he : m.validateEntry mp = Except.ok () :=
        (validateEntry_ok_iff m mp).2 (hok s mp (by simp))
      have hbad' : ¬ ∀ s mp, (s, mp) ∈ rest → s ∈ m.states := by
        intro hall
        refine hbad ?_
        intro t tm htm
        rcases List.mem_cons.1 htm with hh | hh
        · simp only [Prod.mk.injEq] at hh
          obtain ⟨rfl, rfl⟩ := hh
          exact h1
        · exact hall t tm hh
      obtain ⟨t, ht, heq⟩ :=
        ih (fun t tm htm => hok t tm (List.mem_cons_of_mem _ htm)) hbad'
      exact ⟨t, ht, by rw [validateTrans_cons_ok m rest h1 he, heq]⟩
    · exact ⟨s, h1, validateTrans_cons_src m mp rest h1⟩

lemma validateTrans_symbol_err (m : AFD) (l : List (String × List (String × String)))
    (hsrc : ∀ s mp, (s, mp) ∈ l → s ∈ m.states)
    (htgt : ∀ s mp, (s, mp) ∈ l → ∀ a b, (a, b) ∈ mp → b ∈ m.states)
    (hbad : ¬ ∀ s mp, (s, mp) ∈ l → ∀ a b, (a, b) ∈ mp → a ∈ m.alphabet) :
    ∃ sym, sym ∉ m.alphabet ∧
      m.validateTrans l = Except.error (VErr.transSymbolNotInAlphabet sym) := by
  induction l with
  | nil => exact absurd (by simp) hbad
  | cons p rest ih =>
    obtain ⟨s, mp⟩ := p
    have h1 : s ∈ m.states := hsrc s mp (by simp)
    by_cases hmp : ∀ a b, (a, b) ∈ mp → a ∈ m.alphabet
    · have he : m.validateEntry mp = Except.ok () :=
        (validateEntry_ok_iff m mp).2
          (fun a b hab => ⟨hmp a b hab, htgt s mp (by simp) a b hab⟩)
      have hbad' : ¬ ∀ s mp, (s, mp) ∈ rest → ∀ a b, (a, b) ∈ mp → a ∈ m.alphabet := by
        intro hall
        refine hbad ?_
        intro t tm htm
        rcases List.mem_cons.1 htm with hh | hh
        · simp only [Prod.mk.injEq] at hh
          obtain ⟨rfl, rfl⟩ := hh
          exact hmp
        · exact hall t tm hh
      obtain ⟨sy, hsy, heq⟩ :=
        ih (fun t tm htm => hsrc t tm (List.mem_cons_of_mem _ htm))
          (fun t tm htm => htgt t tm (List.mem_cons_of_mem _ htm)) hbad'
      exact ⟨sy, hsy, by rw [validateTrans_cons_ok m rest h1 he, heq]⟩
    · obtain ⟨sy, hsy, heq⟩ :=
        validateEntry_symbol_err m mp (htgt s mp (by simp)) hmp
      exact ⟨sy, hsy, validateTrans_cons_err m rest h1 heq⟩

lemma validateTrans_target_err (m : AFD) (l : List (String × List (String × String)))
    (hsrc : ∀ s mp, (s, mp) ∈ l → s ∈ m.states)
    (hsym : ∀ s mp, (s, mp) ∈ l → ∀ a b, (a, b) ∈ mp → a ∈ m.alphabet)
    (hbad : ¬ ∀ s mp, (s, mp) ∈ l → ∀ a b, (a, b) ∈ mp → b ∈ m.states) :
    ∃ dst, dst ∉ m.states ∧
      m.validateTrans l = Except.error (VErr.transTargetUnknown dst) := by
  induction l with
  | nil => exact absurd (by simp) hbad
  | cons p rest ih =>
    obtain ⟨s, mp⟩ := p
    have h1 : s ∈ m.states := hsrc s mp (by simp)
    by_cases hmp : ∀ a b, (a, b) ∈ mp → b ∈ m.states
    · have he : m.validateEntry mp = Except.ok () :=
        (validateEntry_ok_iff m mp).2
          (fun a b hab => ⟨hsym s mp (by simp) a b hab, hmp a b hab⟩)
      have hbad' : ¬ ∀ s mp, (s, mp) ∈ rest → ∀ a b, (a, b) ∈ mp → b ∈ m.states := by
        intro hall
        refine hbad ?_
        intro t tm htm
        rcases List.mem_cons.1 htm with hh | hh
        · simp only [Prod.mk.injEq] at hh
          obtain ⟨rfl, rfl⟩ := hh
          exact hmp
        · exact hall t tm hh
      obtain ⟨d, hd, heq⟩ :=
        ih (fun t tm htm => hsrc t tm (List.mem_cons_of_mem _ htm))
          (fun t tm htm => hsym t tm (List.mem_cons_of_mem _ htm)) hbad'
      exact ⟨d, hd, by rw [validateTrans_cons_ok m rest h1 he, heq]⟩
    · obtain ⟨d, hd, heq⟩ :=
        validateEntry_target_err m mp (hsym s mp (by simp)) hmp
      exact ⟨d, hd, validateTrans_cons_err m rest h1 heq⟩

lemma validateEntry_ne_initial (m : AFD) :
    ∀ l, m.validateEntry l ≠ Except.error VErr.initialNotInStates := by
  intro l
  induction l with
  | nil => simp [AFD.validateEntry]
  | cons q rest ih =>
    obtain ⟨sym, dst⟩ := q
    by_cases h1 : sym ∈ m.alphabet
    · by_cases h2 : dst ∈ m.states
      · rw [validateEntry_cons_ok m rest h1 h2]
        exact ih
      · rw [validateEntry_cons_tgt m rest h1 h2]
        simp
    · rw [validateEntry_cons_sym m dst rest h1]
      simp

lemma validateTrans_ne_initial (m : AFD) :
    ∀ l, m.validateTrans l ≠ Except.error VErr.initialNotInStates := by
  intro l
  induction l with
  | nil => simp [AFD.validateTrans]
  | cons p rest ih =>
    obtain ⟨s, mp⟩ := p
    by_cases h1 : s ∈ m.states
    · cases he : m.validateEntry mp with
      | error e =>
        rw [validateTrans_cons_err m rest h1 he]
        intro hcontra
        refine validateEntry_ne_initial m mp ?_
        rw [he]
        exact congrArg Except.error (by injection hcontra)
      | ok u =>
        cases u
        rw [validateTrans_cons_ok m rest h1 he]
        exact ih
    · rw [validateTrans_cons_src m mp rest h1]
      simp

/-- C2: validate succeeds exactly when the five structural invariants
hold; an individually broken invariant produces exactly the corresponding
error (for the three transition checks, with the offending item as
payload); and with no initial state set the initial-state check can never
fire, in particular the unconfigured empty automaton validates. -/
theorem claim_C2 (m : AFD) :
    (m.validate = Except.ok () ↔
      (m.inv1 = true ∧ m.inv2 = true ∧ m.inv3 = true ∧ m.inv4 = true ∧ m.inv5 = true))
    ∧ (m.inv1 = false → m.validate = Except.error VErr.initialNotInStates)
    ∧ (m.inv1 = true → m.inv2 = false → m.validate = Except.error VErr.acceptingNotSubset)
    ∧ (m.inv1 = true → m.inv2 = true → m.inv3 = false → m.inv4 = true → m.inv5 = true →
        ∃ s, s ∉ m.states ∧ m.validate = Except.error (VErr.transSourceUnknown s))
    ∧ (m.inv1 = true → m.inv2 = true → m.inv3 = true → m.inv4 = false → m.inv5 = true →
        ∃ sym, sym ∉ m.alphabet ∧
          m.validate = Except.error (VErr.transSymbolNotInAlphabet sym))
    ∧ (m.inv1 = true → m.inv2 = true → m.inv3 = true → m.inv4 = true → m.inv5 = false →
        ∃ dst, dst ∉ m.states ∧ m.validate = Except.error (VErr.transTargetUnknown dst))
    ∧ (m.initial_state = none → m.validate ≠ Except.error VErr.initialNotInStates) := by
  have h3iff : m.inv3 = true ↔ ∀ s mp, (s, mp) ∈ m.transitions → s ∈ m.states := by
    simp [AFD.inv3, Prod.forall]
  have h4iff : m.inv4 = true ↔
      ∀ s mp, (s, mp) ∈ m.transitions → ∀ a b, (a, b) ∈ mp → a ∈ m.alphabet := by
    simp [AFD.inv4, Prod.forall]
  have h5iff : m.inv5 = true ↔
      ∀ s mp, (s, mp) ∈ m.transitions → ∀ a b, (a, b) ∈ mp → b ∈ m.states := by
    simp [AFD.inv5, Prod.forall]
  have hvt : m.inv1 = true → m.inv2 = true →
      m.validate = m.validateTrans m.transitions := by
    intro k1 k2
    have hb : m.initialBad = false := by rw [initialBad_eq, k1]; rfl
    have hmem : ∀ x ∈ m.accepting_states, x ∈ m.states := by
      simpa [AFD.inv2] using k2
    simp [AFD.validate, hb]
    intro x hx hnx
    exact absurd (hmem x hx) hnx
  have c2 : m.inv1 = false → m.validate = Except.error VErr.initialNotInStates := by
    intro k1
    have hb : m.initialBad = true := by rw [initialBad_eq, k1]; rfl
    simp [AFD.validate, hb]
  have c3 : m.inv1 = true → m.inv2 = false →
      m.validate = Except.error VErr.acceptingNotSubset := by
    intro k1 k2
    have hb : m.initialBad = false := by rw [initialBad_eq, k1]; rfl
    have hno : ¬ ∀ x ∈ m.accepting_states, x ∈ m.states := by
      intro hall
      have htrue : m.inv2 = true := by simpa [AFD.inv2] using hall
      rw [htrue] at k2
      exact absurd k2 (by simp)
    simp [AFD.validate, hb]
    intro hall
    exact absurd hall hno
  refine ⟨?_, c2, c3, ?_, ?_, ?_, ?_⟩
  · by_cases k1 : m.inv1 = true
    · by_cases k2 : m.inv2 = true
      · rw [hvt k1 k2, validateTrans_ok_iff]
        constructor
        · intro h
          refine ⟨k1, k2, h3iff.2 (fun s mp hm => (h s mp hm).1),
            h4iff.2 (fun s mp hm a b hab => ((h s mp hm).2 a b hab).1),
            h5iff.2 (fun s mp hm a b hab => ((h s mp hm).2 a b hab).2)⟩
        · rintro ⟨_, _, h3, h4, h5⟩ s mp hm
          exact ⟨h3iff.1 h3 s mp hm,
            fun a b hab => ⟨h4iff.1 h4 s mp hm a b hab, h5iff.1 h5 s mp hm a b hab⟩⟩
      · have k2f : m.inv2 = false := by revert k2; cases m.inv2 <;> simp
        rw [c3 k1 k2f]
        constructor
        · intro h
          exact absurd h (by simp)
        · rintro ⟨_, hk2, _⟩
          rw [hk2] at k2f
          exact absurd k2f (by simp)
    · have k1f : m.inv1 = false := by revert k1; cases m.inv1 <;> simp
      rw [c2 k1f]
      constructor
      · intro h
        exact absurd h (by simp)
      · rintro ⟨hk1, _⟩
        rw [hk1] at k1f
        exact absurd k1f (by simp)
  · intro k1 k2 k3 k4 k5
    have hok : ∀ s mp, (s, mp) ∈ m.transitions →
        ∀ a b, (a, b) ∈ mp → a ∈ m.alphabet ∧ b ∈ m.states :=
      fun s mp hm a b hab => ⟨h4iff.1 k4 s mp hm a b hab, h5iff.1 k5 s mp hm a b hab⟩
    have hbad : ¬ ∀ s mp, (s, mp) ∈ m.transitions → s ∈ m.states := by
      intro hall
      rw [h3iff.2 hall] at k3
      exact absurd k3 (by simp)
    obtain ⟨s, hs, heq⟩ := validateTrans_source_err m m.transitions hok hbad
    exact ⟨s, hs, by rw [hvt k1 k2, heq]⟩
  · intro k1 k2 k3 k4 k5
    have hbad : ¬ ∀ s mp, (s, mp) ∈ m.transitions →
        ∀ a b, (a, b) ∈ mp → a ∈ m.alphabet := by
      intro hall
      rw [h4iff.2 hall] at k4
      exact absurd k4 (by simp)
    obtain ⟨sy, hsy, heq⟩ :=
      validateTrans_symbol_err m m.transitions (h3iff.1 k3) (h5iff.1 k5) hbad
    exact ⟨sy, hsy, by rw [hvt k1 k2, heq]⟩
  · intro k1 k2 k3 k4 k5
    have hbad : ¬ ∀ s mp, (s, mp) ∈ m.transitions →
        ∀ a b, (a, b) ∈ mp → b ∈ m.states := by
      intro hall
      rw [h5iff.2 hall] at k5
      exact absurd k5 (by simp)
    obtain ⟨d, hd, heq⟩ :=
      validateTrans_target_err m m.transitions (h3iff.1 k3) (h4iff.1 k4) hbad
    exact ⟨d, hd, by rw [hvt k1 k2, heq]⟩
  · intro hnone heq
    have hb : m.initialBad = false := by simp [AFD.initialBad, hnone]
    unfold AFD.validate at heq
    rw [hb] at heq
    simp only [Bool.false_eq_true, if_false] at heq
    split at heq
    · exact absurd heq (by simp)
    · exact validateTrans_ne_initial m m.transitions heq

/-- Witness for claim_C2 on one automaton per individually broken
invariant, plus the unconfigured empty automaton. -/
theorem claim_C2_witness :
    badInitial.validate = Except.error VErr.initialNotInStates
    ∧ badAccepting.validate = Except.error VErr.acceptingNotSubset
    ∧ (∃ s, s ∉ badSource.states ∧
        badSource.validate = Except.error (VErr.transSourceUnknown s))
    ∧ (∃ sym, sym ∉ badSymbol.alphabet ∧
        badSymbol.validate = Except.error (VErr.transSymbolNotInAlphabet sym))
    ∧ (∃ dst, dst ∉ badTarget.states ∧
        badTarget.validate = Except.error (VErr.transTargetUnknown dst))
    ∧ emptyAFD.validate ≠ Except.error VErr.initialNotInStates
    ∧ emptyAFD.validate = Except.ok () :=
  ⟨(claim_C2 badInitial).2.1 (by decide),
    (claim_C2 badAccepting).2.2.1 (by decide) (by decide),
    (claim_C2 badSource).2.2.2.1 (by decide) (by decide) (by decide) (by decide) (by decide),
    (claim_C2 badSymbol).2.2.2.2.1 (by decide) (by decide) (by decide) (by decide) (by decide),
    (claim_C2 badTarget).2.2.2.2.2.1 (by decide) (by decide) (by decide) (by decide)
      (by decide),
    (claim_C2 emptyAFD).2.2.2.2.2.2 rfl,
    (claim_C2 emptyAFD).1.mpr (by decide)⟩

/-! ### Helper lemmas about the enumerator -/

lemma lookup_pair_mem {l : List (String × String)} {k v : String}
    (h : l.lookup k = some v) : (k, v) ∈ l := by
  induction l with
  | nil => simp [List.lookup] at h
  | cons p rest ih =>
    obtain ⟨a, b⟩ := p
    rw [List.lookup] at h
    by_cases hk : k = a
    · subst hk
      simp at h
      subst h
      exact List.mem_cons_self _ _
    · have : (k == a) = false := by simpa using hk
      rw [this] at h
      simp only [cond_false] at h
      exact List.mem_cons_of_mem _ (ih h)

lemma lookup_nested_mem {tr : List (String × List (String × String))}
    {k : String} {mp : List (String × String)}
    (h : tr.lookup k = some mp) : (k, mp) ∈ tr := by
  induction tr with
  | nil => simp [List.lookup] at h
  | cons p rest ih =>
    obtain ⟨a, b⟩ := p
    rw [List.lookup] at h
    by_cases hk : k = a
    · subst hk
      simp at h
      subst h
      exact List.mem_cons_self _ _
    · have : (k == a) = false := by simpa using hk
      rw [this] at h
      simp only [cond_false] at h
      exact List.mem_cons_of_mem _ (ih h)

lemma lookupT_mem_stateSpace (m : AFD) {st : Option String} {sym dst : String}
    (h : lookupT m.transitions st sym = some dst) : (some dst) ∈ m.stateSpace := by
  cases st with
  | none => simp [lookupT] at h
  | some s =>
    simp only [lookupT] at h
    cases hl : m.transitions.lookup s with
    | none => rw [hl] at h; exact absurd h (by simp)
    | some mp =>
      rw [hl] at h
      have hmem1 : (s, mp) ∈ m.transitions := lookup_nested_mem hl
      have hmem2 : (sym, dst) ∈ mp := lookup_pair_mem h
      unfold AFD.stateSpace
      refine List.mem_cons_of_mem _ ?_
      rw [List.mem_flatMap]
      exact ⟨(s, mp), hmem1, List.mem_map.2 ⟨(sym, dst), hmem2, rfl⟩⟩

lemma mem_childConfigs (m : AFD) (st : Option String) (s : List String) (c : Config) :
    c ∈ m.childConfigs st s ↔
      ∃ sym, sym ∈ m.alphabet ∧ ∃ dst,
        lookupT m.transitions st sym = some dst ∧ c = (some dst, s ++ [sym]) := by
  constructor
  · intro h
    rcases List.mem_filterMap.1 h with ⟨a, ha, hm⟩
    cases hl : lookupT m.transitions st a with
    | none => rw [hl] at hm; exact absurd hm (by simp)
    | some dst =>
      rw [hl] at hm
      simp only [Option.some.injEq] at hm
      exact ⟨a, ha, dst, hl, hm.symm⟩
  · rintro ⟨sym, hsym, dst, hl, rfl⟩
    exact List.mem_filterMap.2 ⟨sym, hsym, by rw [hl]⟩

lemma childConfigs_length_le (m : AFD) (st : Option String) (s : List String) :
    (m.childConfigs st s).length ≤ m.alphabet.length :=
  List.length_filterMap_le _ _

lemma childConfigs_snd_sublist (m : AFD) (st : Option String) (s : List String) :
    ((m.childConfigs st s).map (fun c => c.2)).Sublist
      (m.alphabet.map (fun sym => s ++ [sym])) := by
  unfold AFD.childConfigs
  induction m.alphabet with
  | nil => simp
  | cons a t ih =>
    cases hl : lookupT m.transitions st a with
    | none => simpa [List.filterMap_cons, hl] using ih.cons (s ++ [a])
    | some dst => simpa [List.filterMap_cons, hl] using ih.cons₂ (s ++ [a])

lemma mem_stringsUpTo (alphabet : List String) :
    ∀ (k : Nat) (s : List String), s.length ≤ k → (∀ x ∈ s, x ∈ alphabet) →
      s ∈ stringsUpTo alphabet k := by
  intro k
  induction k with
  | zero =>
    intro s hlen _
    have : s = [] := List.length_eq_zero.1 (Nat.le_zero.1 hlen)
    subst this
    simp [stringsUpTo]
  | succ k ih =>
    intro s hlen hal
    by_cases hs : s = []
    · subst hs
      simp [stringsUpTo]
    · have hrec : s.dropLast ++ [s.getLast hs] = s := List.dropLast_append_getLast hs
      have hdrop : s.dropLast ∈ stringsUpTo alphabet k := by
        refine ih s.dropLast ?_ ?_
        · have := List.length_dropLast s
          omega
        · intro x hx
          exact hal x (List.dropLast_sublist s |>.mem hx)
      rw [stringsUpTo]
      refine List.mem_cons_of_mem _ ?_
      rw [List.mem_flatMap]
      refine ⟨s.dropLast, hdrop, ?_⟩
      rw [List.mem_map]
      exact ⟨s.getLast hs, hal _ (List.getLast_mem hs), hrec⟩

lemma QInv_mem_configSpace (m : AFD) (maxLen : Nat) (c : Config)
    (h : QInv m maxLen c) : c ∈ m.configSpace maxLen := by
  obtain ⟨hst, _, hal, hlen⟩ := h
  obtain ⟨st, s⟩ := c
  unfold AFD.configSpace
  rw [List.mem_flatMap]
  exact ⟨st, hst, List.mem_map.2 ⟨s, mem_stringsUpTo m.alphabet maxLen s hlen hal, rfl⟩⟩

lemma QInv_seed (m : AFD) (maxLen : Nat) : QInv m maxLen (m.initial_state, []) :=
  ⟨List.mem_cons_self _ _, rfl, by simp, by simp⟩

lemma QInv_child (m : AFD) (maxLen : Nat) {st : Option String} {s : List String}
    (h : QInv m maxLen (st, s)) (hlen : s.length < maxLen)
    {c : Config} (hc : c ∈ m.childConfigs st s) : QInv m maxLen c := by
  rcases (mem_childConfigs m st s c).1 hc with ⟨sym, hsym, dst, hl, rfl⟩
  obtain ⟨_, hw, hal, _⟩ := h
  refine ⟨lookupT_mem_stateSpace m hl, walk_snoc m sym st dst s m.initial_state hw hl, ?_, ?_⟩
  · intro x hx
    rcases List.mem_append.1 hx with hx | hx
    · exact hal x hx
    · rw [List.mem_singleton.1 hx]
      exact hsym
  · simp only [List.length_append, List.length_singleton]
    omega

lemma filter_notmem_cons_le (l visited : List Config) (c : Config) :
    (l.filter (fun d => !((c :: visited).contains d))).length ≤
      (l.filter (fun d => !(visited.contains d))).length := by
  refine List.Sublist.length_le (List.monotone_filter_right l ?_)
  intro d hd
  simp only [List.contains_cons, Bool.not_or, Bool.and_eq_true] at hd
  simpa using hd.2

lemma filter_notmem_cons_lt (visited : List Config) (c : Config) :
    ∀ l : List Config, c ∈ l → c ∉ visited →
      (l.filter (fun d => !((c :: visited).contains d))).length <
        (l.filter (fun d => !(visited.contains d))).length := by
  intro l
  induction l with
  | nil => intro hc; exact absurd hc (by simp)
  | cons a t ih =>
    intro hc hnv
    by_cases hac : a = c
    · subst hac
      have hnew : (!((a :: visited).contains a)) = false := by simp
      have hold : (!(visited.contains a)) = true := by simpa using hnv
      rw [List.filter_cons, List.filter_cons, hnew, hold]
      simp only [Bool.false_eq_true, if_false, if_true, List.length_cons]
      exact Nat.lt_succ_of_le (filter_notmem_cons_le t visited a)
    · have hct : c ∈ t := by
        rcases List.mem_cons.1 hc with h | h
        · exact absurd h.symm hac
        · exact h
      rw [List.filter_cons, List.filter_cons]
      have heq : (!((c :: visited).contains a)) = (!(visited.contains a)) := by
        simp only [List.contains_cons]
        have : (a == c) = false := by simpa using hac
        rw [this]
        simp
      rw [heq]
      cases hv : (!(visited.contains a)) with
      | false =>
        simp only [Bool.false_eq_true, if_false]
        exact ih hct hnv
      | true =>
        simp only [if_true, List.length_cons]
        exact Nat.succ_lt_succ (ih hct hnv)

lemma unvisitedCount_lt (m : AFD) (maxLen : Nat) (visited : List Config) (c : Config)
    (hc : c ∈ m.configSpace maxLen) (hnv : c ∉ visited) :
    m.unvisitedCount maxLen (c :: visited) < m.unvisitedCount maxLen visited :=
  filter_notmem_cons_lt visited c (m.configSpace maxLen) hc hnv

lemma genLoop_cons (m : AFD) (n maxLen fuel : Nat) (st : Option String)
    (s : List String) (rest visited : List Config) (results : List (List String)) :
    m.genLoop n maxLen (fuel + 1) ((st, s) :: rest) visited results =
      if n ≤ results.length then some results
      else if (st, s) ∈ visited then m.genLoop n maxLen fuel rest visited results
      else
        if n ≤ (if m.finalAccept st && !(results.contains s) then results ++ [s]
            else results).length then
          some (if m.finalAccept st && !(results.contains s) then results ++ [s]
            else results)
        else if maxLen ≤ s.length then
          m.genLoop n maxLen fuel rest ((st, s) :: visited)
            (if m.finalAccept st && !(results.contains s) then results ++ [s] else results)
        else
          m.genLoop n maxLen fuel (rest ++ m.childConfigs st s) ((st, s) :: visited)
            (if m.finalAccept st && !(results.contains s) then results ++ [s] else results)
    := rfl

lemma genLoop_some (m : AFD) (n maxLen : Nat) :
    ∀ (fuel : Nat) (queue visited : List Config) (results : List (List String)),
      (∀ c ∈ queue, QInv m maxLen c) →
      (m.alphabet.length + 1) * m.unvisitedCount maxLen visited + queue.length < fuel →
      ∃ r, m.genLoop n maxLen fuel queue visited results = some r := by
  intro fuel
  induction fuel with
  | zero =>
    intro q v r _ hm
    omega
  | succ fuel ih =>
    intro queue visited results hq hm
    cases queue with
    | nil => exact ⟨results, rfl⟩
    | cons c rest =>
      obtain ⟨st, s⟩ := c
      rw [genLoop_cons]
      by_cases h1 : n ≤ results.length
      · rw [if_pos h1]
        exact ⟨results, rfl⟩
      · rw [if_neg h1]
        by_cases hv : (st, s) ∈ visited
        · rw [if_pos hv]
          refine ih rest visited results (fun c hc => hq c (List.mem_cons_of_mem _ hc)) ?_
          simp only [List.length_cons] at hm
          omega
        · rw [if_neg hv]
          have hcs : (st, s) ∈ m.configSpace maxLen :=
            QInv_mem_configSpace m maxLen _ (hq _ (List.mem_cons_self _ _))
          have hUlt := unvisitedCount_lt m maxLen visited (st, s) hcs hv
          have hprod : (m.alphabet.length + 1) * (m.unvisitedCount maxLen ((st, s) :: visited) + 1) ≤
              (m.alphabet.length + 1) * m.unvisitedCount maxLen visited :=
            Nat.mul_le_mul_left _ hUlt
          have hexp : (m.alphabet.length + 1) * (m.unvisitedCount maxLen ((st, s) :: visited) + 1) =
              (m.alphabet.length + 1) * m.unvisitedCount maxLen ((st, s) :: visited) +
                (m.alphabet.length + 1) := by ring
          by_cases h2 : n ≤ (if m.finalAccept st && !(results.contains s) then results ++ [s]
              else results).length
          · rw [if_pos h2]
            exact ⟨_, rfl⟩
          · rw [if_neg h2]
            by_cases h3 : maxLen ≤ s.length
            · rw [if_pos h3]
              refine ih rest ((st, s) :: visited) _
                (fun c hc => hq c (List.mem_cons_of_mem _ hc)) ?_
              simp only [List.length_cons] at hm
              omega
            · rw [if_neg h3]
              have hchild := childConfigs_length_le m st s
              refine ih (rest ++ m.childConfigs st s) ((st, s) :: visited) _ ?_ ?_
              · intro c hc
                rcases List.mem_append.1 hc with hc | hc
                · exact hq c (List.mem_cons_of_mem _ hc)
                · exact QInv_child m maxLen (hq _ (List.mem_cons_self _ _))
                    (Nat.lt_of_not_le h3) hc
              · simp only [List.length_cons] at hm
                simp only [List.length_append]
                omega

lemma genLoop_zero (m : AFD) (n maxLen : Nat) (q v : List Config)
    (res : List (List String)) : m.genLoop n maxLen 0 q v res = none := rfl

lemma genLoop_nil (m : AFD) (n maxLen fuel : Nat) (v : List Config)
    (res : List (List String)) : m.genLoop n maxLen (fuel + 1) [] v res = some res := rfl

lemma seed_QInv (m : AFD) (maxLen : Nat) :
    ∀ c ∈ [((m.initial_state, []) : Config)], QInv m maxLen c := by
  intro c hc
  rw [List.mem_singleton.1 hc]
  exact QInv_seed m maxLen

lemma seed_fuel (m : AFD) (maxLen : Nat) :
    (m.alphabet.length + 1) * m.unvisitedCount maxLen [] +
      ([((m.initial_state, []) : Config)]).length < m.genFuel maxLen := by
  have hU : m.unvisitedCount maxLen [] = (m.configSpace maxLen).length := by
    simp [AFD.unvisitedCount]
  rw [hU]
  unfold AFD.genFuel
  simp only [List.length_singleton]
  exact Nat.add_lt_add_left (by norm_num) _

/-- C9: the breadth-first search of generate_accepted terminates: the
explicitly computed fuel AFD.genFuel, finite for every definition and
bounds, is enough for the loop to return, and generate_accepted is the
returned list. -/
theorem claim_C9 (m : AFD) (n maxLen : Nat) :
    ∃ r, m.genLoop n maxLen (m.genFuel maxLen) [(m.initial_state, [])] [] [] = some r
      ∧ m.generate_accepted n maxLen = r := by
  obtain ⟨r, hr⟩ := genLoop_some m n maxLen (m.genFuel maxLen)
    [(m.initial_state, [])] [] [] (seed_QInv m maxLen) (seed_fuel m maxLen)
  refine ⟨r, hr, ?_⟩
  unfold AFD.generate_accepted
  rw [hr]
  rfl

lemma genLoop_props (m : AFD) (n maxLen : Nat) :
    ∀ (fuel : Nat) (queue visited : List Config) (results r : List (List String)),
      (∀ c ∈ queue, QInv m maxLen c) →
      results.length ≤ n →
      results.Nodup →
      (∀ s ∈ results, s.length ≤ maxLen ∧ (∀ x ∈ s, x ∈ m.alphabet) ∧
        ∃ st, m.walk m.initial_state s = some st ∧ m.finalAccept st = true) →
      m.genLoop n maxLen fuel queue visited results = some r →
      r.length ≤ n ∧ r.Nodup ∧
        (∀ s ∈ r, s.length ≤ maxLen ∧ (∀ x ∈ s, x ∈ m.alphabet) ∧
          ∃ st, m.walk m.initial_state s = some st ∧ m.finalAccept st = true) := by
  intro fuel
  induction fuel with
  | zero =>
    intro q v res r _ _ _ _ heq
    rw [genLoop_zero] at heq
    exact absurd heq (by simp)
  | succ fuel ih =>
    intro queue visited results r hq hlen hnd hprops heq
    cases queue with
    | nil =>
      rw [genLoop_nil] at heq
      obtain rfl := Option.some.inj heq
      exact ⟨hlen, hnd, hprops⟩
    | cons c rest =>
      obtain ⟨st, s⟩ := c
      rw [genLoop_cons] at heq
      by_cases h1 : n ≤ results.length
      · rw [if_pos h1] at heq
        obtain rfl := Option.some.inj heq
        exact ⟨hlen, hnd, hprops⟩
      · rw [if_neg h1] at heq
        by_cases hv : (st, s) ∈ visited
        · rw [if_pos hv] at heq
          exact ih rest visited results r (fun c hc => hq c (List.mem_cons_of_mem _ hc))
            hlen hnd hprops heq
        · rw [if_neg hv] at heq
          obtain ⟨hstS, hwalk, hsyms, hslen⟩ := hq _ (List.mem_cons_self _ _)
          by_cases hacc : (m.finalAccept st && !(results.contains s)) = true
          · rw [if_pos hacc] at heq
            have hacc' := hacc
            simp only [Bool.and_eq_true] at hacc'
            obtain ⟨hfin, hnotmem⟩ := hacc'
            have hnm : s ∉ results := by simpa using hnotmem
            have hlen' : (results ++ [s]).length ≤ n := by
              simp only [List.length_append, List.length_singleton]
              omega
            have hnd' : (results ++ [s]).Nodup :=
              List.nodup_append.2 ⟨hnd, by simp, by
                intro a ha hb
                rw [List.mem_singleton.1 hb] at ha
                exact hnm ha⟩
            have hprops' : ∀ t ∈ results ++ [s], t.length ≤ maxLen ∧
                (∀ x ∈ t, x ∈ m.alphabet) ∧
                ∃ st, m.walk m.initial_state t = some st ∧ m.finalAccept st = true := by
              intro t ht
              rcases List.mem_append.1 ht with ht | ht
              · exact hprops t ht
              · rw [List.mem_singleton.1 ht]
                exact ⟨hslen, hsyms, st, hwalk, hfin⟩
            by_cases h2 : n ≤ (results ++ [s]).length
            · rw [if_pos h2] at heq
              obtain rfl := Option.some.inj heq
              exact ⟨hlen', hnd', hprops'⟩
            · rw [if_neg h2] at heq
              by_cases h3 : maxLen ≤ s.length
              · rw [if_pos h3] at heq
                exact ih rest ((st, s) :: visited) _ r
                  (fun c hc => hq c (List.mem_cons_of_mem _ hc)) hlen' hnd' hprops' heq
              · rw [if_neg h3] at heq
                refine ih (rest ++ m.childConfigs st s) ((st, s) :: visited) _ r ?_
                  hlen' hnd' hprops' heq
                intro c hc
                rcases List.mem_append.1 hc with hc | hc
                · exact hq c (List.mem_cons_of_mem _ hc)
                · exact QInv_child m maxLen (hq _ (List.mem_cons_self _ _))
                    (Nat.lt_of_not_le h3) hc
          · rw [if_neg hacc] at heq
            by_cases h2 : n ≤ results.length
            · rw [if_pos h2] at heq
              obtain rfl := Option.some.inj heq
              exact ⟨hlen, hnd, hprops⟩
            · rw [if_neg h2] at heq
              by_cases h3 : maxLen ≤ s.length
              · rw [if_pos h3] at heq
                exact ih rest ((st, s) :: visited) _ r
                  (fun c hc => hq c (List.mem_cons_of_mem _ hc)) hlen hnd hprops heq
              · rw [if_neg h3] at heq
                refine ih (rest ++ m.childConfigs st s) ((st, s) :: visited) _ r ?_
                  hlen hnd hprops heq
                intro c hc
                rcases List.mem_append.1 hc with hc | hc
                · exact hq c (List.mem_cons_of_mem _ hc)
                · exact QInv_child m maxLen (hq _ (List.mem_cons_self _ _))
                    (Nat.lt_of_not_le h3) hc

/-- C6: for every definition and all bounds, generate_accepted returns at
most n strings, pairwise distinct, each accepted by the simulator and of
length at most the bound. -/
theorem claim_C6 (m : AFD) (n maxLen : Nat) :
    (m.generate_accepted n maxLen).length ≤ n
    ∧ (m.generate_accepted n maxLen).Nodup
    ∧ ∀ s ∈ m.generate_accepted n maxLen,
        (∃ tr, m.step_by_step s = Except.ok (tr, true)) ∧ s.length ≤ maxLen := by
  obtain ⟨r, hr⟩ := genLoop_some m n maxLen (m.genFuel maxLen)
    [(m.initial_state, [])] [] [] (seed_QInv m maxLen) (seed_fuel m maxLen)
  have hga : m.generate_accepted n maxLen = r := by
    unfold AFD.generate_accepted
    rw [hr]
    rfl
  obtain ⟨hl, hnd, hp⟩ := genLoop_props m n maxLen (m.genFuel maxLen)
    [(m.initial_state, [])] [] [] r (seed_QInv m maxLen) (by simp) (by simp) (by simp) hr
  rw [hga]
  refine ⟨hl, hnd, ?_⟩
  intro s hs
  obtain ⟨hslen, hsyms, st, hwalk, hfin⟩ := hp s hs
  refine ⟨⟨(m.runLoop m.initial_state 1 s).1, ?_⟩, hslen⟩
  rw [step_by_step_ok m s hsyms]
  have hsnd := runLoop_snd_of_walk m s m.initial_state st 1 hwalk
  rw [hfin] at hsnd
  rw [← hsnd]

lemma childConfigs_len (m : AFD) (st : Option String) (s : List String) :
    ∀ c ∈ m.childConfigs st s, c.2.length = s.length + 1 := by
  intro c hc
  rcases (mem_childConfigs m st s c).1 hc with ⟨sym, _, dst, _, rfl⟩
  simp

lemma genLoop_mono (m : AFD) (n maxLen : Nat) :
    ∀ (fuel : Nat) (queue visited : List Config) (results r : List (List String)),
      queue.Pairwise (fun c d => c.2.length ≤ d.2.length) →
      (∃ k, ∀ c ∈ queue, k ≤ c.2.length ∧ c.2.length ≤ k + 1) →
      results.Pairwise (fun x y => x.length ≤ y.length) →
      (∀ x ∈ results, ∀ c ∈ queue, x.length ≤ c.2.length) →
      m.genLoop n maxLen fuel queue visited results = some r →
      r.Pairwise (fun x y => x.length ≤ y.length) := by
  intro fuel
  induction fuel with
  | zero =>
    intro q v res r _ _ _ _ heq
    rw [genLoop_zero] at heq
    exact absurd heq (by simp)
  | succ fuel ih =>
    intro queue visited results r hqp hqk hrp hcross heq
    cases queue with
    | nil =>
      rw [genLoop_nil] at heq
      obtain rfl := Option.some.inj heq
      exact hrp
    | cons c rest =>
      obtain ⟨st, s⟩ := c
      rw [genLoop_cons] at heq
      by_cases h1 : n ≤ results.length
      · rw [if_pos h1] at heq
        obtain rfl := Option.some.inj heq
        exact hrp
      · rw [if_neg h1] at heq
        obtain ⟨hhead, htail⟩ := List.pairwise_cons.1 hqp
        obtain ⟨k, hk⟩ := hqk
        have hks : k ≤ s.length := (hk _ (List.mem_cons_self _ _)).1
        have hsk : s.length ≤ k + 1 := (hk _ (List.mem_cons_self _ _)).2
        by_cases hv : (st, s) ∈ visited
        · rw [if_pos hv] at heq
          exact ih rest visited results r htail
            ⟨k, fun c hc => hk c (List.mem_cons_of_mem _ hc)⟩ hrp
            (fun x hx c hc => hcross x hx c (List.mem_cons_of_mem _ hc)) heq
        · rw [if_neg hv] at heq
          have hchildlen := childConfigs_len m st s
          have hqp' : (rest ++ m.childConfigs st s).Pairwise
              (fun c d => c.2.length ≤ d.2.length) := by
            rw [List.pairwise_append]
            refine ⟨htail, List.pairwise_of_forall_mem_list ?_, ?_⟩
            · intro c hc d hd
              rw [hchildlen c hc, hchildlen d hd]
            · intro c hc d hd
              rw [hchildlen d hd]
              have h1c := (hk c (List.mem_cons_of_mem _ hc)).2
              omega
          have hqk' : ∃ k', ∀ c ∈ rest ++ m.childConfigs st s,
              k' ≤ c.2.length ∧ c.2.length ≤ k' + 1 := by
            refine ⟨s.length, fun c hc => ?_⟩
            rcases List.mem_append.1 hc with hc | hc
            · have hlow : s.length ≤ c.2.length := hhead c hc
              have hup := (hk c (List.mem_cons_of_mem _ hc)).2
              omega
            · rw [hchildlen c hc]
              omega
          by_cases hacc : (m.finalAccept st && !(results.contains s)) = true
          · rw [if_pos hacc] at heq
            have hrp' : (results ++ [s]).Pairwise (fun x y => x.length ≤ y.length) := by
              rw [List.pairwise_append]
              refine ⟨hrp, by simp, ?_⟩
              intro x hx y hy
              rw [List.mem_singleton.1 hy]
              exact hcross x hx _ (List.mem_cons_self _ _)
            by_cases h2 : n ≤ (results ++ [s]).length
            · rw [if_pos h2] at heq
              obtain rfl := Option.some.inj heq
              exact hrp'
            · rw [if_neg h2] at heq
              have hcross1 : ∀ x ∈ results ++ [s], ∀ c ∈ rest,
                  x.length ≤ c.2.length := by
                intro x hx c hc
                rcases List.mem_append.1 hx with hx | hx
                · exact hcross x hx c (List.mem_cons_of_mem _ hc)
                · rw [List.mem_singleton.1 hx]
                  exact hhead c hc
              by_cases h3 : maxLen ≤ s.length
              · rw [if_pos h3] at heq
                exact ih rest ((st, s) :: visited) _ r htail
                  ⟨k, fun c hc => hk c (List.mem_cons_of_mem _ hc)⟩ hrp' hcross1 heq
              · rw [if_neg h3] at heq
                refine ih (rest ++ m.childConfigs st s) ((st, s) :: visited) _ r
                  hqp' hqk' hrp' ?_ heq
                intro x hx c hc
                rcases List.mem_append.1 hc with hc | hc
                · exact hcross1 x hx c hc
                · rw [hchildlen c hc]
                  rcases List.mem_append.1 hx with hx | hx
                  · have hxs : x.length ≤ s.length :=
                      hcross x hx _ (List.mem_cons_self (st, s) rest)
                    omega
                  · rw [List.mem_singleton.1 hx]
                    omega
          · rw [if_neg hacc] at heq
            by_cases h2 : n ≤ results.length
            · rw [if_pos h2] at heq
              obtain rfl := Option.some.inj heq
              exact hrp
            · rw [if_neg h2] at heq
              by_cases h3 : maxLen ≤ s.length
              · rw [if_pos h3] at heq
                exact ih rest ((st, s) :: visited) _ r htail
                  ⟨k, fun c hc => hk c (List.mem_cons_of_mem _ hc)⟩ hrp
                  (fun x hx c hc => hcross x hx c (List.mem_cons_of_mem _ hc)) heq
              · rw [if_neg h3] at heq
                refine ih (rest ++ m.childConfigs st s) ((st, s) :: visited) _ r
                  hqp' hqk' hrp ?_ heq
                intro x hx c hc
                rcases List.mem_append.1 hc with hc | hc
                · exact hcross x hx c (List.mem_cons_of_mem _ hc)
                · rw [hchildlen c hc]
                  have hxs : x.length ≤ s.length :=
                    hcross x hx _ (List.mem_cons_self (st, s) rest)
                  omega

/-- C5: the strings returned by generate_accepted come in non-decreasing
length order (breadth-first order), and on Scenario C with three results
and length bound three the output is exactly 1, 01, 10, reflecting the
alphabet order 0 before 1 at each expansion step. -/
theorem claim_C5 :
    (∀ (m : AFD) (n maxLen : Nat),
      (m.generate_accepted n maxLen).Pairwise (fun x y => x.length ≤ y.length))
    ∧ exampleC.generate_accepted 3 3 = [["1"], ["0", "1"], ["1", "0"]] := by
  constructor
  · intro m n maxLen
    obtain ⟨r, hr⟩ := genLoop_some m n maxLen (m.genFuel maxLen)
      [(m.initial_state, [])] [] [] (seed_QInv m maxLen) (seed_fuel m maxLen)
    have hga : m.generate_accepted n maxLen = r := by
      unfold AFD.generate_accepted
      rw [hr]
      rfl
    rw [hga]
    refine genLoop_mono m n maxLen (m.genFuel maxLen) [(m.initial_state, [])] [] [] r
      (by simp) ⟨0, by simp⟩ (by simp) (by simp) hr
  · decide

lemma genLoopNoVis_zero (m : AFD) (n maxLen : Nat) (q : List Config)
    (res : List (List String)) : m.genLoopNoVis n maxLen 0 q res = none := rfl

lemma genLoopNoVis_nil (m : AFD) (n maxLen fuel : Nat) (res : List (List String)) :
    m.genLoopNoVis n maxLen (fuel + 1) [] res = some res := rfl

lemma genLoopNoVis_cons (m : AFD) (n maxLen fuel : Nat) (st : Option String)
    (s : List String) (rest : List Config) (results : List (List String)) :
    m.genLoopNoVis n maxLen (fuel + 1) ((st, s) :: rest) results =
      if n ≤ results.length then some results
      else
        if n ≤ (if m.finalAccept st && !(results.contains s) then results ++ [s]
            else results).length then
          some (if m.finalAccept st && !(results.contains s) then results ++ [s]
            else results)
        else if maxLen ≤ s.length then
          m.genLoopNoVis n maxLen fuel rest
            (if m.finalAccept st && !(results.contains s) then results ++ [s] else results)
        else
          m.genLoopNoVis n maxLen fuel (rest ++ m.childConfigs st s)
            (if m.finalAccept st && !(results.contains s) then results ++ [s] else results)
    := rfl

lemma genLoopHits_zero (m : AFD) (n maxLen : Nat) (q v : List Config)
    (res : List (List String)) (c0 : Nat) :
    m.genLoopHits n maxLen 0 q v res c0 = none := rfl

lemma genLoopHits_nil (m : AFD) (n maxLen fuel : Nat) (v : List Config)
    (res : List (List String)) (c0 : Nat) :
    m.genLoopHits n maxLen (fuel + 1) [] v res c0 = some (res, c0) := rfl

lemma genLoopHits_cons (m : AFD) (n maxLen fuel : Nat) (st : Option String)
    (s : List String) (rest visited : List Config) (results : List (List String))
    (c0 : Nat) :
    m.genLoopHits n maxLen (fuel + 1) ((st, s) :: rest) visited results c0 =
      if n ≤ results.length then some (results, c0)
      else if (st, s) ∈ visited then
        m.genLoopHits n maxLen fuel rest visited results (c0 + 1)
      else
        if n ≤ (if m.finalAccept st && !(results.contains s) then results ++ [s]
            else results).length then
          some ((if m.finalAccept st && !(results.contains s) then results ++ [s]
            else results), c0)
        else if maxLen ≤ s.length then
          m.genLoopHits n maxLen fuel rest ((st, s) :: visited)
            (if m.finalAccept st && !(results.contains s) then results ++ [s] else results)
            c0
        else
          m.genLoopHits n maxLen fuel (rest ++ m.childConfigs st s) ((st, s) :: visited)
            (if m.finalAccept st && !(results.contains s) then results ++ [s] else results)
            c0
    := rfl

lemma childConfigs_snd_nodup (m : AFD) (st : Option String) (s : List String)
    (hA : m.alphabet.Nodup) : ((m.childConfigs st s).map (fun c => c.2)).Nodup := by
  refine (childConfigs_snd_sublist m st s).nodup (List.Nodup.map ?_ hA)
  intro a b h
  simpa using h

lemma mem_childConfigs_snd (m : AFD) (st : Option String) (s x : List String)
    (hx : x ∈ (m.childConfigs st s).map (fun c => c.2)) : ∃ sym, x = s ++ [sym] := by
  rcases List.mem_map.1 hx with ⟨c, hc, rfl⟩
  rcases (mem_childConfigs m st s c).1 hc with ⟨sym, _, dst, _, rfl⟩
  exact ⟨sym, rfl⟩

lemma genLoop_novis_hits (m : AFD) (n maxLen : Nat) (hA : m.alphabet.Nodup) :
    ∀ (fuel : Nat) (queue visited : List Config) (results : List (List String)) (c0 : Nat),
      (∀ p ∈ queue ++ visited, m.walk m.initial_state p.2 = some p.1) →
      ((queue ++ visited).map (fun p => p.2)).Nodup →
      (∀ p ∈ queue ++ visited, p.2 = [] ∨ p.2.dropLast ∈ visited.map (fun q => q.2)) →
      m.genLoop n maxLen fuel queue visited results =
          m.genLoopNoVis n maxLen fuel queue results
      ∧ m.genLoopHits n maxLen fuel queue visited results c0 =
          (m.genLoop n maxLen fuel queue visited results).map (fun x => (x, c0)) := by
  intro fuel
  induction fuel with
  | zero =>
    intro q v res c0 _ _ _
    exact ⟨rfl, rfl⟩
  | succ fuel ih =>
    intro queue visited results c0 hwalkI hnd hpar
    cases queue with
    | nil => exact ⟨rfl, rfl⟩
    | cons c rest =>
      obtain ⟨st, s⟩ := c
      simp only [List.cons_append] at hwalkI hnd hpar
      simp only [List.map_cons, List.map_append] at hnd
      have hs_notin : s ∉ rest.map (fun q => q.2) ++ visited.map (fun q => q.2) :=
        (List.nodup_cons.1 hnd).1
      have hrv : (rest.map (fun q => q.2) ++ visited.map (fun q => q.2)).Nodup :=
        (List.nodup_cons.1 hnd).2
      have hrm : (rest.map (fun q => q.2)).Nodup := hrv.of_append_left
      have hvm : (visited.map (fun q => q.2)).Nodup := hrv.of_append_right
      have hdisj := List.disjoint_of_nodup_append hrv
      have hs_nr : s ∉ rest.map (fun q => q.2) := fun h =>
        hs_notin (List.mem_append.2 (Or.inl h))
      have hs_nv : s ∉ visited.map (fun q => q.2) := fun h =>
        hs_notin (List.mem_append.2 (Or.inr h))
      have hnv : (st, s) ∉ visited := fun hmem =>
        hs_nv (List.mem_map.2 ⟨(st, s), hmem, rfl⟩)
      have hwalk_s : m.walk m.initial_state s = some st :=
        hwalkI (st, s) (List.mem_cons_self _ _)
      have hmem_old : ∀ p, p ∈ rest ++ (st, s) :: visited →
          p ∈ (st, s) :: (rest ++ visited) := by
        intro p hp
        rcases List.mem_append.1 hp with hp | hp
        · exact List.mem_cons_of_mem _ (List.mem_append.2 (Or.inl hp))
        · rcases List.mem_cons.1 hp with hp | hp
          · rw [hp]
            exact List.mem_cons_self _ _
          · exact List.mem_cons_of_mem _ (List.mem_append.2 (Or.inr hp))
      have hwalkR : ∀ p ∈ rest ++ (st, s) :: visited,
          m.walk m.initial_state p.2 = some p.1 := fun p hp => hwalkI p (hmem_old p hp)
      have hndR : ((rest ++ (st, s) :: visited).map (fun p => p.2)).Nodup := by
        have hperm : (rest ++ (st, s) :: visited).Perm ((st, s) :: (rest ++ visited)) :=
          List.perm_middle
        refine ((hperm.map (fun p => p.2)).nodup_iff).2 ?_
        simp only [List.map_cons, List.map_append]
        exact List.nodup_cons.2 ⟨hs_notin, hrv⟩
      have hparR : ∀ p ∈ rest ++ (st, s) :: visited,
          p.2 = [] ∨ p.2.dropLast ∈ ((st, s) :: visited).map (fun q => q.2) := by
        intro p hp
        refine (hpar p (hmem_old p hp)).imp_right ?_
        intro h
        simp only [List.map_cons]
        exact List.mem_cons_of_mem _ h
      have hwalkE : ∀ p ∈ (rest ++ m.childConfigs st s) ++ (st, s) :: visited,
          m.walk m.initial_state p.2 = some p.1 := by
        intro p hp
        rcases List.mem_append.1 hp with hp | hp
        · rcases List.mem_append.1 hp with hp | hp
          · exact hwalkI p (List.mem_cons_of_mem _ (List.mem_append.2 (Or.inl hp)))
          · rcases (mem_childConfigs m st s p).1 hp with ⟨sym, _, dst, hl, rfl⟩
            exact walk_snoc m sym st dst s m.initial_state hwalk_s hl
        · exact hwalkR p (List.mem_append.2 (Or.inr hp))
      have hchild_notin : ∀ x ∈ (m.childConfigs st s).map (fun c => c.2),
          x ∉ rest.map (fun q => q.2) ∧ x ≠ s ∧ x ∉ visited.map (fun q => q.2) := by
        intro x hx
        obtain ⟨sym, rfl⟩ := mem_childConfigs_snd m st s x hx
        refine ⟨?_, ?_, ?_⟩
        · intro hmem
          rcases List.mem_map.1 hmem with ⟨c', hc', hcs⟩
          have hp := hpar c' (List.mem_cons_of_mem _ (List.mem_append.2 (Or.inl hc')))
          rcases hp with hp | hp
          · rw [hp] at hcs
            exact absurd hcs.symm (by simp)
          · rw [hcs, List.dropLast_concat] at hp
            exact hs_nv hp
        · intro heq
          have := congrArg List.length heq
          simp at this
        · intro hmem
          rcases List.mem_map.1 hmem with ⟨c', hc', hcs⟩
          have hp := hpar c' (List.mem_cons_of_mem _ (List.mem_append.2 (Or.inr hc')))
          rcases hp with hp | hp
          · rw [hp] at hcs
            exact absurd hcs.symm (by simp)
          · rw [hcs, List.dropLast_concat] at hp
            exact hs_nv hp
      have hndE : (((rest ++ m.childConfigs st s) ++ (st, s) :: visited).map
          (fun p => p.2)).Nodup := by
        simp only [List.map_append, List.map_cons, List.append_assoc]
        rw [List.nodup_append]
        refine ⟨hrm, ?_, ?_⟩
        · rw [List.nodup_append]
          refine ⟨childConfigs_snd_nodup m st s hA,
            List.nodup_cons.2 ⟨hs_nv, hvm⟩, ?_⟩
          intro x hx hx2
          obtain ⟨_, hxs, hxv⟩ := hchild_notin x hx
          rcases List.mem_cons.1 hx2 with hx2 | hx2
          · exact hxs hx2
          · exact hxv hx2
        · intro x hx hx2
          rcases List.mem_append.1 hx2 with hx2 | hx2
          · exact (hchild_notin x hx2).1 hx
          · rcases List.mem_cons.1 hx2 with hx2 | hx2
            · rw [hx2] at hx
              exact hs_nr hx
            · exact hdisj hx hx2
      have hparE : ∀ p ∈ (rest ++ m.childConfigs st s) ++ (st, s) :: visited,
          p.2 = [] ∨ p.2.dropLast ∈ ((st, s) :: visited).map (fun q => q.2) := by
        intro p hp
        rcases List.mem_append.1 hp with hp | hp
        · rcases List.mem_append.1 hp with hp | hp
          · exact hparR p (List.mem_append.2 (Or.inl hp))
          · rcases (mem_childConfigs m st s p).1 hp with ⟨sym, _, dst, _, rfl⟩
            refine Or.inr ?_
            simp only [List.dropLast_concat, List.map_cons]
            exact List.mem_cons_self _ _
        · exact hparR p (List.mem_append.2 (Or.inr hp))
      rw [genLoop_cons, genLoopNoVis_cons, genLoopHits_cons]
      by_cases h1 : n ≤ results.length
      · simp only [if_pos h1]
        exact ⟨trivial, rfl⟩
      · simp only [if_neg h1, if_neg hnv]
        by_cases h2 : n ≤ (if m.finalAccept st && !(results.contains s) then results ++ [s]
            else results).length
        · simp only [if_pos h2]
          exact ⟨trivial, rfl⟩
        · simp only [if_neg h2]
          by_cases h3 : maxLen ≤ s.length
          · simp only [if_pos h3]
            exact ih rest ((st, s) :: visited) _ c0 hwalkR hndR hparR
          · simp only [if_neg h3]
            exact ih (rest ++ m.childConfigs st s) ((st, s) :: visited) _ c0
              hwalkE hndE hparE

/-- C8: for a definition with distinct alphabet symbols (as the data model
requires), the visited-set de-duplication branch of generate_accepted
never fires, and removing the visited check entirely does not change the
returned results. -/
theorem claim_C8 (m : AFD) (n maxLen : Nat) (hA : m.alphabet.Nodup) :
    m.generate_accepted_hits n maxLen = 0
    ∧ m.generate_accepted_novisited n maxLen = m.generate_accepted n maxLen := by
  obtain ⟨heq, hhits⟩ := genLoop_novis_hits m n maxLen hA (m.genFuel maxLen)
    [(m.initial_state, [])] [] [] 0
    (by
      intro p hp
      simp only [List.append_nil, List.mem_singleton] at hp
      rw [hp]
      rfl)
    (by simp)
    (by
      intro p hp
      simp only [List.append_nil, List.mem_singleton] at hp
      rw [hp]
      left
      rfl)
  constructor
  · unfold AFD.generate_accepted_hits
    rw [hhits]
    cases hg : m.genLoop n maxLen (m.genFuel maxLen) [(m.initial_state, [])] [] [] with
    | none => simp
    | some r => simp
  · unfold AFD.generate_accepted_novisited AFD.generate_accepted
    rw [heq]

/-- Witness for claim_C8 on Scenario C. -/
theorem claim_C8_witness :
    exampleC.generate_accepted_hits 3 3 = 0
    ∧ exampleC.generate_accepted_novisited 3 3 = exampleC.generate_accepted 3 3 :=
  claim_C8 exampleC 3 3 (by decide)

/-- Witness for claim_C6 on Scenario C with three results and bound three. -/
theorem claim_C6_witness :
    (exampleC.generate_accepted 3 3).length ≤ 3
    ∧ (exampleC.generate_accepted 3 3).Nodup
    ∧ ∀ s ∈ exampleC.generate_accepted 3 3,
        (∃ tr, exampleC.step_by_step s = Except.ok (tr, true)) ∧ s.length ≤ 3 :=
  claim_C6 exampleC 3 3
